import Mathlib

/-!
Shallow embedding of `sutord.py` (a multiplayer Wordle-like Discord bot) in
Lean 4, together with theorems settling the specification claims.

Words are modelled as `List Char`; Python's `collections.Counter` is modelled
as a function `Char → Int` with default value `0` (Python counters return `0`
for missing keys and may be decremented below zero); Python dicts used as
ordered maps are modelled as association lists (Python dicts preserve
insertion order).
-/

namespace Sutord

/-- Embeds `LetterType` (sutord.py lines 13-16). -/
inductive LetterType where
  | FOUND
  | EXIST
  | WRONG
deriving DecidableEq, Repr

/-! ## Dictionary.normalize

`Dictionary.normalize(word)` is
`''.join(filter(str.isalpha, unidecode(word))).lower()` (sutord.py 92-94).

`unidecode` is an external library mapping arbitrary Unicode text to ASCII:
it is the identity on ASCII characters, transliterates accented Latin
letters to their base letters, and maps characters it does not know to the
empty string.  We model it character-wise with a finite transliteration
table for the accented letters relevant to a French word game; every output
character is ASCII by construction, mirroring unidecode's contract. -/

/-- Transliteration table for non-ASCII characters, modelling the unidecode
library's mapping on the accented Latin letters a French dictionary uses. -/
def uniTable : List (Char × List Char) :=
  [('à', ['a']), ('â', ['a']), ('ä', ['a']), ('é', ['e']), ('è', ['e']),
   ('ê', ['e']), ('ë', ['e']), ('î', ['i']), ('ï', ['i']), ('ô', ['o']),
   ('ö', ['o']), ('ù', ['u']), ('û', ['u']), ('ü', ['u']), ('ç', ['c']),
   ('À', ['A']), ('Â', ['A']), ('É', ['E']), ('È', ['E']), ('Ê', ['E']),
   ('Î', ['I']), ('Ô', ['O']), ('Ù', ['U']), ('Û', ['U']), ('Ç', ['C']),
   ('œ', ['o', 'e']), ('Œ', ['O', 'E']), ('æ', ['a', 'e']), ('Æ', ['A', 'E'])]

/-- Character-wise model of the `unidecode` library: identity on ASCII,
transliteration table for known accented letters, empty otherwise. -/
def uniChar (c : Char) : List Char :=
  if c.toNat < 128 then [c]
  else (((uniTable.find? (fun q => q.1 = c)).map (fun q => q.2)).getD [])

/-- Model of `unidecode` on a whole string. -/
def unidecode (w : List Char) : List Char :=
  w.flatMap uniChar

/-- Embeds `Dictionary.normalize` (sutord.py 92-94):
`''.join(filter(str.isalpha, unidecode(word))).lower()`.
Python's `str.isalpha` coincides with `Char.isAlpha` on the ASCII output of
`unidecode`, and `str.lower` with `Char.toLower`. -/
def normalize (w : List Char) : List Char :=
  ((unidecode w).filter Char.isAlpha).map Char.toLower

/-! ## Answer.check (the scoring algorithm)

sutord.py 115-133.  `counts = Counter(hidden_word)`; pass 1 decrements the
count of every exact positional match; pass 2 classifies each position. -/

/-- `counts[x] -= 1` on a counter modelled as `Char → Int`. -/
def decr (f : Char → Int) (x : Char) : Char → Int :=
  fun d => if d = x then f d - 1 else f d

/-- `Counter(hidden_word)`: multiset of letter counts of the hidden word. -/
def initCounts (hidden : List Char) : Char → Int :=
  fun c => (hidden.count c : Int)

/-- Pass 1 of `Answer.check`: `for x, y in zip(word, hidden_word): if x == y:
counts[x] -= 1` (sutord.py 120-122). -/
def pass1 (word hidden : List Char) (f : Char → Int) : Char → Int :=
  match word, hidden with
  | x :: ws, y :: hs => pass1 ws hs (if x = y then decr f x else f)
  | _, _ => f

/-- Pass 2 of `Answer.check` (sutord.py 124-131): FOUND on an exact match,
EXIST if the letter occurs in the hidden word and its remaining count is
positive (then decrement), otherwise WRONG.  `hidden0` is the whole hidden
word, against which `x in hidden_word` is tested. -/
def pass2 (word hidden hidden0 : List Char) (f : Char → Int) : List LetterType :=
  match word, hidden with
  | x :: ws, y :: hs =>
    if x = y then
      LetterType.FOUND :: pass2 ws hs hidden0 f
    else if x ∈ hidden0 ∧ 0 < f x then
      LetterType.EXIST :: pass2 ws hs hidden0 (decr f x)
    else
      LetterType.WRONG :: pass2 ws hs hidden0 f
  | _, _ => []

/-- Embeds `Answer.check(word, hidden_word)` (sutord.py 115-133). -/
def check (word hidden : List Char) : List LetterType :=
  pass2 word hidden hidden (pass1 word hidden (initCounts hidden))

/-! ## Answer, Player, Game (sutord.py 101-233)

Participants are opaque ids (`Nat`); the Python `dict` mapping users to
players is an insertion-ordered association list.  Methods that mutate
`self` return the updated value alongside the method's result. -/

/-- Embeds the data of `Answer` (sutord.py 101-104): the guessed word and
its classification against the hidden word. -/
structure Answer where
  letters : List Char
  types : List LetterType
deriving DecidableEq, Repr

/-- `Answer.__init__` (sutord.py 102-104). -/
def Answer.mk' (word hidden : List Char) : Answer :=
  ⟨word, check word hidden⟩

/-- `Answer.get_letters_found` (sutord.py 112-113). -/
def Answer.get_letters_found (a : Answer) : List (Option Char) :=
  (a.letters.zip a.types).map
    (fun q => if q.2 = LetterType.FOUND then some q.1 else none)

/-- Embeds the data of `Player` (sutord.py 135-141); `mention` (a Discord
handle used only for presentation) is dropped. -/
structure Player where
  rank : Int
  left : Bool
  letters : List (Option Char)
  answers : List Answer
deriving DecidableEq, Repr

/-- `Player.__init__` (sutord.py 136-141): rank −1, not left, only the
first letter of the hidden word revealed, no answers. -/
def Player.init (hidden : List Char) : Player :=
  { rank := -1, left := false,
    letters := hidden.enum.map (fun q => if q.1 = 0 then some q.2 else none),
    answers := [] }

/-- `Player.found` (sutord.py 156-157): `None not in self.letters`. -/
def Player.found (p : Player) : Bool :=
  !(p.letters.contains none)

/-- `Player.over` (sutord.py 159-160). -/
def Player.over (p : Player) : Bool :=
  p.found || p.left

/-- `Player.answered` (sutord.py 162-163). -/
def Player.answered (p : Player) : Bool :=
  decide (0 < p.answers.length)

/-- Python's `x or y` on `letter-or-None` values (sutord.py 167): keeps `x`
when it is a letter (letters are truthy), else `y`. -/
def pyOr (x y : Option Char) : Option Char :=
  match x with
  | some a => some a
  | none => y

/-- `Player.add_answer` (sutord.py 165-168): score the word, merge the
FOUND letters into the revealed slots, append to history. -/
def Player.add_answer (p : Player) (word hidden : List Char) : Player :=
  let answer := Answer.mk' word hidden
  { p with
    letters := (p.letters.zip answer.get_letters_found).map (fun q => pyOr q.1 q.2),
    answers := p.answers ++ [answer] }

/-- Embeds the data of `Game` (sutord.py 170-175).  `dict` is the
membership oracle of `self.dictionary` (`Dictionary.contains`, the only
dictionary query `Game` makes besides the static `normalize`);
`hidden_word` is the word `dictionary.choice()` picked (the random draw is
a parameter of `Game.init`). -/
structure Game where
  dict : List Char → Bool
  hidden_word : List Char
  players : List (Nat × Player)
  next_rank : Int

/-- Lookup in the user → player map (`self.players[user]` / `in`). -/
def lookupP (ps : List (Nat × Player)) (u : Nat) : Option Player :=
  (ps.find? (fun q => q.1 == u)).map (fun q => q.2)

/-- In-place update of one user's player (`self.players[user]` mutation);
keys and their order are preserved, as for a Python dict. -/
def setP (ps : List (Nat × Player)) (u : Nat) (p : Player) : List (Nat × Player) :=
  ps.map (fun q => if q.1 = u then (u, p) else q)

/-- `Game.__init__` (sutord.py 171-175): one fresh `Player` per user (a
duplicate user id in the list keeps the first entry, as for a Python dict
comprehension whose values are all equal), `next_rank = 1`. -/
def Game.init (dict : List Char → Bool) (hidden : List Char) (users : List Nat) : Game :=
  { dict, hidden_word := hidden,
    players := users.foldl
      (fun ps u => if (lookupP ps u).isSome then ps else ps ++ [(u, Player.init hidden)]) [],
    next_rank := 1 }

/-- Sort key of `Game.get_sorted_players` (sutord.py 184-185):
`player.rank if player.rank > 0 else self.next_rank`. -/
def sortKey (nextRank : Int) (p : Player) : Int :=
  if 0 < p.rank then p.rank else nextRank

/-- `Game.get_sorted_players` (sutord.py 184-185): Python's stable `sorted`
is a merge sort ascending by the key. -/
def Game.get_sorted_players (g : Game) : List Player :=
  (g.players.map (fun q => q.2)).mergeSort
    (fun a b => decide (sortKey g.next_rank a ≤ sortKey g.next_rank b))

/-- `Game.over` (sutord.py 187-188). -/
def Game.over (g : Game) : Bool :=
  g.players.all (fun q => q.2.over)

/-- `Game.answered` (sutord.py 190-191). -/
def Game.answered (g : Game) : Bool :=
  g.players.any (fun q => q.2.answered)

/-- `Game.add_player` (sutord.py 193-199): reject iff the id is already
present, else insert a fresh `Player`. -/
def Game.add_player (g : Game) (u : Nat) : Bool × Game :=
  if (lookupP g.players u).isSome then (false, g)
  else (true, { g with players := g.players ++ [(u, Player.init g.hidden_word)] })

/-- `Game.remove_player` (sutord.py 201-207): reject if unknown or already
over, else mark `left = true`. -/
def Game.remove_player (g : Game) (u : Nat) : Bool × Game :=
  match lookupP g.players u with
  | none => (false, g)
  | some p =>
    if p.over then (false, g)
    else (true, { g with players := setP g.players u { p with left := true } })

/-- The user-facing rejection reasons of `Game.add_answer` (the French
message strings of sutord.py 221, 223, 225); unknown player and
already-over return `(False, None)`. -/
inductive GuessError where
  | tooShort
  | tooLong
  | notInDictionary
deriving DecidableEq, Repr

/-- `Game.add_answer` (sutord.py 209-233): validate (unknown player, player
over, too short, too long, not in dictionary, short-circuiting in that
order), then apply the guess; if the player just completed, hand out
`next_rank` and increment it. -/
def Game.add_answer (g : Game) (u : Nat) (raw : List Char) : (Bool × Option GuessError) × Game :=
  match lookupP g.players u with
  | none => ((false, none), g)
  | some player =>
    if player.over then ((false, none), g)
    else
      let word := normalize raw
      if word.length < g.hidden_word.length then ((false, some GuessError.tooShort), g)
      else if g.hidden_word.length < word.length then ((false, some GuessError.tooLong), g)
      else if !(g.dict word) then ((false, some GuessError.notInDictionary), g)
      else
        let p1 := player.add_answer word g.hidden_word
        if p1.found then
          ((true, none), { g with players := setP g.players u { p1 with rank := g.next_rank },
                                  next_rank := g.next_rank + 1 })
        else
          ((true, none), { g with players := setP g.players u p1 })

/-- `g` with its dictionary oracle replaced (used to state that a result
does not depend on the dictionary). -/
def Game.withDict (g : Game) (d : List Char → Bool) : Game :=
  { g with dict := d }

/-! ## Sessions as sequences of operations -/

/-- One external event delivered to the session: a join reaction, a leave
reaction, or a guess message (sutord.py 393-398, 453-460, 475-483). -/
inductive Op where
  | join (u : Nat)
  | leave (u : Nat)
  | guess (u : Nat) (raw : List Char)

/-- The state reached after one operation (results discarded). -/
def Game.applyOp (g : Game) : Op → Game
  | Op.join u => (g.add_player u).2
  | Op.leave u => (g.remove_player u).2
  | Op.guess u raw => (g.add_answer u raw).2

/-- The state reached after a sequence of operations. -/
def Game.run (g : Game) (ops : List Op) : Game :=
  ops.foldl Game.applyOp g

/-- `rankOf g u`: the rank of user `u`'s player, when present. -/
def rankOf (g : Game) (u : Nat) : Option Int :=
  (lookupP g.players u).map (fun p => p.rank)

/-- `foundOf g u`: whether user `u`'s player has fully revealed the word. -/
def foundOf (g : Game) (u : Nat) : Option Bool :=
  (lookupP g.players u).map (fun p => p.found)

/-- An observed rank change of one player across one operation. -/
structure RankEvent where
  user : Nat
  rankBefore : Int
  rankAfter : Int
  foundBefore : Bool
  foundAfter : Bool
  nextRankBefore : Int
deriving DecidableEq, Repr

/-- All rank changes between the players of `g` and of `g'`, together with
the found-status transition and the value of `next_rank` before the step. -/
def rankChangesAux (ps ps' : List (Nat × Player)) (nr : Int) : List RankEvent :=
  ps.filterMap (fun q =>
    match lookupP ps' q.1 with
    | some p' =>
      if p'.rank ≠ q.2.rank then
        some ⟨q.1, q.2.rank, p'.rank, q.2.found, p'.found, nr⟩
      else none
    | none => none)

/-- Rank changes across one step from `g` to `g'`. -/
def rankChanges (g g' : Game) : List RankEvent :=
  rankChangesAux g.players g'.players g.next_rank

/-- The sequence of rank-assignment events observed along a run. -/
def Game.trace (g : Game) : List Op → List RankEvent
  | [] => []
  | op :: ops => rankChanges g (g.applyOp op) ++ (g.applyOp op).trace ops

/-! ## PlayerStats and GamesStats (sutord.py 235-334)

`save` writes each counter as one line of JSON (`json.dumps`) and each
scalar as one decimal line; `load` reads them back, converting the JSON
object keys of the ranks counter back to `int` (JSON object keys are
strings).  We model a written file as a record of its lines, with counters
as insertion-ordered association lists (JSON objects preserve order, and
`json.dumps`/`json.loads` round-trip string keys and integer values
exactly); the integer↔decimal-string key conversion — the one lossy-looking
spot — is modelled explicitly by `renderInt`/`parseInt`.  A missing backing
file (`Path(filename).is_file()` false) is the `none` case. -/

/-- Decimal rendering of a natural number, as Python's `str`/`json.dumps`
produce it (most significant digit first, `"0"` for zero). -/
def renderNat (n : Nat) : List Char :=
  if n = 0 then ['0']
  else ((Nat.digits 10 n).map (fun d => Char.ofNat (d + 48))).reverse

/-- Decimal rendering of an integer (leading `'-'` when negative). -/
def renderInt (i : Int) : List Char :=
  if i < 0 then '-' :: renderNat i.natAbs else renderNat i.toNat

/-- Python's `int()` on a decimal digit string. -/
def parseNat (s : List Char) : Nat :=
  Nat.ofDigits 10 ((s.map (fun c => c.toNat - 48)).reverse)

/-- Python's `int()` on an optionally `'-'`-prefixed decimal string. -/
def parseInt (s : List Char) : Int :=
  if s.head? = some '-' then -(parseNat s.tail : Int) else (parseNat s : Int)

/-- Embeds the data of `PlayerStats` (sutord.py 235-245): the per-rank
counter, the per-guessed-word counter, and the running total of guesses in
found games. -/
structure PlayerStats where
  ranks : List (Int × Int)
  words : List (List Char × Int)
  num_words_when_found : Int
deriving DecidableEq, Repr

/-- `PlayerStats.__init__` (sutord.py 236-245): all counters empty, scalar
zero. -/
def PlayerStats.init : PlayerStats :=
  ⟨[], [], 0⟩

/-- The three lines of a player stats file (sutord.py 277-281): the ranks
counter with its integer keys rendered as JSON (string) keys, the words
counter, and the decimal scalar line. -/
structure PlayerStatsFile where
  line1 : List (List Char × Int)
  line2 : List (List Char × Int)
  line3 : List Char
deriving DecidableEq, Repr

/-- `PlayerStats.save` (sutord.py 277-281). -/
def PlayerStats.save (s : PlayerStats) : PlayerStatsFile :=
  ⟨s.ranks.map (fun q => (renderInt q.1, q.2)), s.words, renderInt s.num_words_when_found⟩

/-- `PlayerStats.load` (sutord.py 283-293): a missing file yields a fresh
zero object; otherwise the ranks keys are parsed back with `int(rank)` and
the scalar line with `int(...)`. -/
def PlayerStats.load (file : Option PlayerStatsFile) : PlayerStats :=
  match file with
  | none => PlayerStats.init
  | some f => ⟨f.line1.map (fun q => (parseInt q.1, q.2)), f.line2, parseInt f.line3⟩

/-- Embeds the data of `GamesStats` (sutord.py 295-300). -/
structure GamesStats where
  hidden_words : List (List Char × Int)
  num_players : Int
deriving DecidableEq, Repr

/-- `GamesStats.__init__` (sutord.py 296-299). -/
def GamesStats.init : GamesStats :=
  ⟨[], 0⟩

/-- The two lines of a games stats file (sutord.py 320-323). -/
structure GamesStatsFile where
  line1 : List (List Char × Int)
  line2 : List Char
deriving DecidableEq, Repr

/-- `GamesStats.save` (sutord.py 320-323). -/
def GamesStats.save (s : GamesStats) : GamesStatsFile :=
  ⟨s.hidden_words, renderInt s.num_players⟩

/-- `GamesStats.load` (sutord.py 325-334): a missing file yields a fresh
zero object. -/
def GamesStats.load (file : Option GamesStatsFile) : GamesStats :=
  match file with
  | none => GamesStats.init
  | some f => ⟨f.line1, parseInt f.line2⟩

/-- Number of exact positional matches between `w` and `h`. -/
def exactMatches (w h : List Char) : Nat :=
  (w.zip h).countP (fun q => decide (q.1 = q.2))

/-- Number of exact positional matches between `w` and `h` whose letter is `c`. -/
def matchCount (w h : List Char) (c : Char) : Nat :=
  (w.zip h).countP (fun q => decide (q.1 = q.2 ∧ q.1 = c))

/-- Number of positions of `w` holding letter `c` whose classification in
`ts` is FOUND or EXIST. -/
def creditCount (w : List Char) (ts : List LetterType) (c : Char) : Nat :=
  (w.zip ts).countP
    (fun q => decide (q.1 = c ∧ (q.2 = LetterType.FOUND ∨ q.2 = LetterType.EXIST)))

/-- A left player with rank −1, used as a concrete witness. -/
def leftPlayer : Player :=
  { rank := -1, left := true, letters := [some 'a', none], answers := [] }

/-- A concrete session whose only player has left, used as a witness. -/
def leftGame : Game :=
  { dict := fun _ => true, hidden_word := ['a','b'],
    players := [(0, leftPlayer)], next_rank := 1 }

/-- Invariant of every reachable session state: player ids are distinct,
`next_rank` is at least 1, and every player either is unranked (rank −1) or
holds a rank in `[1, next_rank)` and has found the word. -/
def Inv (g : Game) : Prop :=
  (g.players.map Prod.fst).Nodup ∧
  1 ≤ g.next_rank ∧
  ∀ q ∈ g.players, q.2.rank = -1 ∨
    (1 ≤ q.2.rank ∧ q.2.rank < g.next_rank ∧ q.2.found = true)

/-! ## Round-trip of the decimal codec -/

lemma parseNat_renderNat (n : Nat) : parseNat (renderNat n) = n := by
  by_cases h : n = 0
  · subst h; decide
  · unfold renderNat parseNat
    rw [if_neg h, List.map_reverse, List.reverse_reverse, List.map_map]
    have hmap : (Nat.digits 10 n).map
        ((fun c => c.toNat - 48) ∘ (fun d => Char.ofNat (d + 48))) =
        (Nat.digits 10 n).map id :=
      List.map_congr_left (fun d hd => by
        have hd10 : d < 10 := Nat.digits_lt_base (by norm_num) hd
        interval_cases d <;> decide)
    rw [hmap, List.map_id, Nat.ofDigits_digits]

lemma dash_not_mem_renderNat (n : Nat) : '-' ∉ renderNat n := by
  unfold renderNat
  by_cases h : n = 0
  · rw [if_pos h]; decide
  · rw [if_neg h]
    intro hmem
    rw [List.mem_reverse, List.mem_map] at hmem
    obtain ⟨d, hd, hput⟩ := hmem
    have hd10 : d < 10 := Nat.digits_lt_base (by norm_num) hd
    interval_cases d <;> exact absurd hput (by decide)

lemma parseInt_renderNat (n : Nat) : parseInt (renderNat n) = (n : Int) := by
  unfold parseInt
  rw [if_neg, parseNat_renderNat]
  intro hhead
  exact dash_not_mem_renderNat n (List.mem_of_mem_head? (by rw [hhead]; rfl))

lemma parseInt_renderInt (i : Int) : parseInt (renderInt i) = i := by
  unfold renderInt
  by_cases h : i < 0
  · rw [if_pos h]
    have hm : parseInt ('-' :: renderNat i.natAbs) = -(parseNat (renderNat i.natAbs) : Int) := by
      unfold parseInt
      rw [if_pos (show ('-' :: renderNat i.natAbs).head? = some '-' from rfl)]
      rfl
    rw [hm, parseNat_renderNat]
    omega
  · rw [if_neg h, parseInt_renderNat]
    omega

/-- C5: loading a saved `PlayerStats`/`GamesStats` record reproduces the
object exactly (counters and scalars), including the all-zero object, and
loading a missing backing record yields the fresh all-zero object. -/
theorem spec_C5_stats_roundtrip :
    (∀ s : PlayerStats, PlayerStats.load (some s.save) = s) ∧
    PlayerStats.load none = PlayerStats.init ∧
    (∀ s : GamesStats, GamesStats.load (some s.save) = s) ∧
    GamesStats.load none = GamesStats.init := by
  refine ⟨?_, rfl, ?_, rfl⟩
  · intro s
    cases s with
    | mk ranks words num =>
      unfold PlayerStats.load PlayerStats.save
      simp only [PlayerStats.mk.injEq]
      refine ⟨?_, trivial, parseInt_renderInt num⟩
      rw [List.map_map]
      have hmap : ranks.map ((fun q => (parseInt q.1, q.2)) ∘ (fun q => (renderInt q.1, q.2))) =
          ranks.map id :=
        List.map_congr_left (fun q _ => by simp [parseInt_renderInt])
      rw [hmap, List.map_id]
  · intro s
    cases s with
    | mk hw np =>
      unfold GamesStats.load GamesStats.save
      simp [parseInt_renderInt]

/-! ## Counting lemmas for the scoring algorithm -/

@[simp] lemma exactMatches_nil_left (h : List Char) : exactMatches [] h = 0 := by
  simp [exactMatches]

@[simp] lemma exactMatches_nil_right (w : List Char) : exactMatches w [] = 0 := by
  simp [exactMatches]

@[simp] lemma exactMatches_cons (x y : Char) (ws hs : List Char) :
    exactMatches (x :: ws) (y :: hs) = exactMatches ws hs + if x = y then 1 else 0 := by
  unfold exactMatches
  rw [List.zip_cons_cons, List.countP_cons]
  by_cases hxy : x = y <;> simp [hxy]

@[simp] lemma matchCount_nil_left (h : List Char) (c : Char) : matchCount [] h c = 0 := by
  simp [matchCount]

@[simp] lemma matchCount_nil_right (w : List Char) (c : Char) : matchCount w [] c = 0 := by
  simp [matchCount]

@[simp] lemma matchCount_cons (x y : Char) (ws hs : List Char) (c : Char) :
    matchCount (x :: ws) (y :: hs) c =
      matchCount ws hs c + if x = y ∧ x = c then 1 else 0 := by
  unfold matchCount
  rw [List.zip_cons_cons, List.countP_cons]
  by_cases hm : x = y ∧ x = c <;> simp [hm]

@[simp] lemma creditCount_nil_left (ts : List LetterType) (c : Char) :
    creditCount [] ts c = 0 := by
  simp [creditCount]

@[simp] lemma creditCount_nil_right (w : List Char) (c : Char) : creditCount w [] c = 0 := by
  simp [creditCount]

@[simp] lemma creditCount_cons (x : Char) (t : LetterType) (ws : List Char)
    (ts : List LetterType) (c : Char) :
    creditCount (x :: ws) (t :: ts) c =
      creditCount ws ts c +
        if x = c ∧ (t = LetterType.FOUND ∨ t = LetterType.EXIST) then 1 else 0 := by
  unfold creditCount
  rw [List.zip_cons_cons, List.countP_cons]
  by_cases hm : x = c ∧ (t = LetterType.FOUND ∨ t = LetterType.EXIST) <;> simp [hm]

lemma length_pass2 (w : List Char) : ∀ (h h0 : List Char) (f : Char → Int),
    (pass2 w h h0 f).length = min w.length h.length := by
  induction w with
  | nil => intro h h0 f; cases h <;> simp [pass2]
  | cons x ws ih =>
    intro h h0 f
    cases h with
    | nil => simp [pass2]
    | cons y hs =>
      unfold pass2
      split
      · simp only [List.length_cons, ih]; omega
      · split
        · simp only [List.length_cons, ih]; omega
        · simp only [List.length_cons, ih]; omega

lemma length_check (w h : List Char) :
    (check w h).length = min w.length h.length :=
  length_pass2 w h h _

lemma count_found_pass2 (w : List Char) : ∀ (h h0 : List Char) (f : Char → Int),
    (pass2 w h h0 f).count LetterType.FOUND = exactMatches w h := by
  induction w with
  | nil => intro h h0 f; cases h <;> simp [pass2]
  | cons x ws ih =>
    intro h h0 f
    cases h with
    | nil => simp [pass2]
    | cons y hs =>
      unfold pass2
      split
      · rename_i hxy
        simp [List.count_cons, hxy, ih]
      · rename_i hxy
        split
        · simp [List.count_cons, hxy, ih]
        · simp [List.count_cons, hxy, ih]

lemma pass1_eq (w : List Char) : ∀ (h : List Char) (f : Char → Int) (c : Char),
    pass1 w h f c = f c - (matchCount w h c : Int) := by
  induction w with
  | nil => intro h f c; cases h <;> simp [pass1]
  | cons x ws ih =>
    intro h f c
    cases h with
    | nil => simp [pass1]
    | cons y hs =>
      show pass1 (x :: ws) (y :: hs) f c = _
      unfold pass1
      rw [ih, matchCount_cons]
      by_cases hxy : x = y
      · by_cases hxc : x = c
        · have hd : decr f x c = f c - 1 := by
            unfold decr
            rw [if_pos (by rw [hxc])]
          rw [if_pos hxy, hd, if_pos ⟨hxy, hxc⟩]
          push_cast
          ring
        · have hd : decr f x c = f c := by
            unfold decr
            rw [if_neg (fun hcx => hxc hcx.symm)]
          rw [if_pos hxy, hd, if_neg (fun hm => hxc hm.2)]
          push_cast
          ring
      · rw [if_neg hxy, if_neg (fun hm => hxy hm.1)]
        push_cast
        ring

lemma matchCount_le_count (w : List Char) : ∀ (h : List Char) (c : Char),
    matchCount w h c ≤ h.count c := by
  induction w with
  | nil => intro h c; simp
  | cons x ws ih =>
    intro h c
    cases h with
    | nil => simp
    | cons y hs =>
      rw [matchCount_cons, List.count_cons]
      have hrec := ih hs c
      by_cases hm : x = y ∧ x = c
      · obtain ⟨h1, h2⟩ := hm
        subst h1
        subst h2
        simp
        omega
      · rw [if_neg hm]
        by_cases hyc : y = c <;> simp [hyc] <;> omega

lemma pass2_credit (w : List Char) : ∀ (h h0 : List Char) (f : Char → Int) (c : Char),
    0 ≤ f c →
    creditCount w (pass2 w h h0 f) c ≤ matchCount w h c + (f c).toNat := by
  induction w with
  | nil => intro h h0 f c hf; cases h <;> simp [pass2]
  | cons x ws ih =>
    intro h h0 f c hf
    cases h with
    | nil => simp [pass2]
    | cons y hs =>
      unfold pass2
      split
      · rename_i hxy
        rw [creditCount_cons, matchCount_cons]
        have hrec := ih hs h0 f c hf
        by_cases hxc : x = c
        · rw [if_pos ⟨hxc, Or.inl rfl⟩, if_pos ⟨hxy, hxc⟩]
          omega
        · rw [if_neg (fun hm => hxc hm.1), if_neg (fun hm => hxc hm.2)]
          omega
      · rename_i hxy
        split
        · rename_i hguard
          rw [creditCount_cons, matchCount_cons]
          by_cases hxc : x = c
          · subst hxc
            have hpos : 0 < f x := hguard.2
            have hd : decr f x x = f x - 1 := by unfold decr; rw [if_pos rfl]
            have hdec : 0 ≤ decr f x x := by rw [hd]; omega
            have hrec := ih hs h0 (decr f x) x hdec
            rw [hd] at hrec
            rw [if_pos ⟨rfl, Or.inr rfl⟩, if_neg (fun hm => hxy hm.1)]
            omega
          · have hd : decr f x c = f c := by
              unfold decr
              rw [if_neg (fun hcx => hxc hcx.symm)]
            have hdec : 0 ≤ decr f x c := by rw [hd]; exact hf
            have hrec := ih hs h0 (decr f x) c hdec
            rw [hd] at hrec
            rw [if_neg (fun hm => hxc hm.1), if_neg (fun hm => hxy hm.1)]
            omega
        · rw [creditCount_cons, matchCount_cons]
          rw [if_neg (fun hm => by rcases hm.2 with h1 | h1 <;> exact LetterType.noConfusion h1),
              if_neg (fun hm => hxy hm.1)]
          have hrec := ih hs h0 f c hf
          omega

/-- C1: for equal-length `guess` and `hidden`, the classification sequence
of `Answer.check` has length `L`, its number of FOUND positions equals the
number of exact positional matches, and for every letter `c` the number of
positions holding `c` classified FOUND or EXIST is at most the number of
occurrences of `c` in `hidden`. -/
theorem spec_C1_check_counts (guess hidden : List Char)
    (hlen : guess.length = hidden.length) :
    (check guess hidden).length = hidden.length ∧
    (check guess hidden).count LetterType.FOUND = exactMatches guess hidden ∧
    ∀ c, creditCount guess (check guess hidden) c ≤ hidden.count c := by
  refine ⟨?_, count_found_pass2 guess hidden hidden _, ?_⟩
  · rw [length_check, hlen, min_self]
  · intro c
    have hmle := matchCount_le_count guess hidden c
    have hic : initCounts hidden c = (hidden.count c : Int) := rfl
    have hf : 0 ≤ pass1 guess hidden (initCounts hidden) c := by
      rw [pass1_eq, hic]
      omega
    have hcred := pass2_credit guess hidden hidden (pass1 guess hidden (initCounts hidden)) c hf
    rw [pass1_eq, hic] at hcred
    unfold check
    omega

/-- Witness for C1 at guess `radar`, hidden `arbre`, letter `r`. -/
theorem spec_C1_check_counts_witness :
    (['r','a','d','a','r'] : List Char).length = (['a','r','b','r','e'] : List Char).length ∧
    creditCount ['r','a','d','a','r'] (check ['r','a','d','a','r'] ['a','r','b','r','e']) 'r'
      ≤ ['a','r','b','r','e'].count 'r' :=
  ⟨by decide, (spec_C1_check_counts ['r','a','d','a','r'] ['a','r','b','r','e'] (by decide)).2.2 'r'⟩

/-- C2 counterexample: on hidden `arbre` and guess `radar`, `Answer.check`
does not return the claimed sequence ending in WRONG — the final R is
classified EXIST (the hidden word's two R's lose only one to position 0). -/
theorem spec_C2_counterexample :
    ¬ (check ['r','a','d','a','r'] ['a','r','b','r','e'] =
       [LetterType.EXIST, LetterType.EXIST, LetterType.WRONG,
        LetterType.WRONG, LetterType.WRONG]) := by
  decide

/-- C2 amended: for hidden `arbre` and guess `radar`, `Answer.check`
returns [EXIST, EXIST, WRONG, WRONG, EXIST]. -/
theorem spec_C2_radar_arbre :
    check ['r','a','d','a','r'] ['a','r','b','r','e'] =
      [LetterType.EXIST, LetterType.EXIST, LetterType.WRONG,
       LetterType.WRONG, LetterType.EXIST] := by
  decide

/-- C9 amended: `Answer.check` does not fail fast on mismatched lengths —
it silently truncates, returning `min |guess| |hidden|` classifications;
the protection lives in the caller, `Game.add_answer`, which rejects any
guess whose normalized length differs from the hidden word's before the
scoring algorithm is ever invoked. -/
theorem spec_C9_truncates :
    (∀ word hidden : List Char, (check word hidden).length = min word.length hidden.length) ∧
    (∀ (g : Game) (u : Nat) (raw : List Char),
        (normalize raw).length ≠ g.hidden_word.length →
        ((g.add_answer u raw).1).1 = false) := by
  refine ⟨length_check, ?_⟩
  intro g u raw hne
  cases hl : lookupP g.players u with
  | none => simp [Game.add_answer, hl]
  | some p =>
    by_cases hov : p.over
    · simp [Game.add_answer, hl, hov]
    · by_cases hlt : (normalize raw).length < g.hidden_word.length
      · simp [Game.add_answer, hl, hov, hlt]
      · have hgt : g.hidden_word.length < (normalize raw).length := by omega
        simp [Game.add_answer, hl, hov, hlt, hgt]

/-- C9 counterexample: at mismatched lengths `Answer.check` returns a
normal classification sequence (here `[FOUND]`), not a failure. -/
theorem spec_C9_counterexample :
    (['a'] : List Char).length ≠ (['a','b'] : List Char).length ∧
    check ['a'] ['a','b'] = [LetterType.FOUND] := by
  decide

/-- Witness for C9: a too-short guess is rejected by `Game.add_answer`. -/
theorem spec_C9_truncates_witness :
    (normalize ['a']).length ≠ (Game.init (fun _ => true) ['a','b'] [0]).hidden_word.length ∧
    (((Game.init (fun _ => true) ['a','b'] [0]).add_answer 0 ['a']).1).1 = false :=
  ⟨by decide, spec_C9_truncates.2 _ 0 ['a'] (by decide)⟩

/-! ## Idempotence of normalization -/

/-- The facts about ASCII characters the idempotence proof needs, checked
pointwise over all 128 ASCII codepoints. -/
lemma ascii_pointwise : ∀ n : Fin 128,
    ((Char.ofNat n.val).isAlpha = true →
      ((Char.ofNat n.val).toLower.isLower = true ∧ (Char.ofNat n.val).toLower.toNat < 128)) ∧
    ((Char.ofNat n.val).isLower = true →
      ((Char.ofNat n.val).toLower = Char.ofNat n.val ∧ (Char.ofNat n.val).isAlpha = true)) := by
  decide

lemma ascii_char_facts (c : Char) (hc : c.toNat < 128) :
    (c.isAlpha = true → (c.toLower.isLower = true ∧ c.toLower.toNat < 128)) ∧
    (c.isLower = true → (c.toLower = c ∧ c.isAlpha = true)) := by
  have := ascii_pointwise ⟨c.toNat, hc⟩
  rwa [Char.ofNat_toNat] at this

lemma uniChar_mem_ascii (c : Char) : ∀ d ∈ uniChar c, d.toNat < 128 := by
  intro d hd
  unfold uniChar at hd
  by_cases hlt : c.toNat < 128
  · rw [if_pos hlt] at hd
    rw [List.mem_singleton] at hd
    subst hd
    exact hlt
  · rw [if_neg hlt] at hd
    cases hf : uniTable.find? (fun q => q.1 = c) with
    | none => rw [hf] at hd; exact absurd hd (List.not_mem_nil d)
    | some q =>
      rw [hf] at hd
      have hqmem : q ∈ uniTable := List.mem_of_find?_eq_some hf
      have htable : ∀ q ∈ uniTable, ∀ d ∈ q.2, d.toNat < 128 := by decide
      exact htable q hqmem d hd

lemma mem_normalize_lower (w : List Char) :
    ∀ c ∈ normalize w, c.isLower = true ∧ c.toNat < 128 := by
  intro c hc
  unfold normalize at hc
  rw [List.mem_map] at hc
  obtain ⟨d, hd, hdc⟩ := hc
  rw [List.mem_filter] at hd
  obtain ⟨hdmem, hdalpha⟩ := hd
  unfold unidecode at hdmem
  rw [List.mem_flatMap] at hdmem
  obtain ⟨e, _, hde⟩ := hdmem
  have hd128 : d.toNat < 128 := uniChar_mem_ascii e d hde
  rw [← hdc]
  exact (ascii_char_facts d hd128).1 hdalpha

lemma uniChar_of_ascii (c : Char) (h : c.toNat < 128) : uniChar c = [c] := by
  unfold uniChar
  rw [if_pos h]

lemma unidecode_fixed (l : List Char) (h : ∀ c ∈ l, c.toNat < 128) : unidecode l = l := by
  induction l with
  | nil => rfl
  | cons c t ih =>
    unfold unidecode
    rw [List.flatMap_cons, uniChar_of_ascii c (h c (List.mem_cons_self c t))]
    have := ih (fun d hd => h d (List.mem_cons_of_mem c hd))
    unfold unidecode at this
    rw [this]
    rfl

/-- C8: `Dictionary.normalize` is total (a Lean function defined on every
input string) and idempotent: normalizing an already-normalized word
returns it unchanged. -/
theorem spec_C8_normalize_idempotent : ∀ w : List Char, normalize (normalize w) = normalize w := by
  intro w
  have hmem := mem_normalize_lower w
  have h1 : unidecode (normalize w) = normalize w :=
    unidecode_fixed _ (fun c hc => (hmem c hc).2)
  have h2 : (normalize w).filter Char.isAlpha = normalize w :=
    List.filter_eq_self.mpr
      (fun c hc => ((ascii_char_facts c (hmem c hc).2).2 (hmem c hc).1).2)
  have h3 : (normalize w).map Char.toLower = normalize w := by
    have hcongr : (normalize w).map Char.toLower = (normalize w).map id :=
      List.map_congr_left
        (fun c hc => ((ascii_char_facts c (hmem c hc).2).2 (hmem c hc).1).1)
    rw [hcongr, List.map_id]
  calc normalize (normalize w)
      = ((unidecode (normalize w)).filter Char.isAlpha).map Char.toLower := rfl
    _ = ((normalize w).filter Char.isAlpha).map Char.toLower := by rw [h1]
    _ = (normalize w).map Char.toLower := by rw [h2]
    _ = normalize w := h3

end Sutord
namespace Sutord

/-! ## Lookup and update lemmas for the player map -/

@[simp] lemma lookupP_nil (u : Nat) : lookupP [] u = none := rfl

lemma lookupP_cons (v : Nat) (p : Player) (ps : List (Nat × Player)) (u : Nat) :
    lookupP ((v, p) :: ps) u = if v = u then some p else lookupP ps u := by
  unfold lookupP
  by_cases h : v = u
  · subst h
    simp [List.find?_cons]
  · have hb : (v == u) = false := beq_eq_false_iff_ne.mpr h
    simp [List.find?_cons, hb, h]

lemma lookupP_eq_none_iff (ps : List (Nat × Player)) (u : Nat) :
    lookupP ps u = none ↔ u ∉ ps.map Prod.fst := by
  induction ps with
  | nil => simp
  | cons q ps ih =>
    rw [show q = (q.1, q.2) from rfl, lookupP_cons]
    by_cases h : q.1 = u
    · subst h
      simp
    · rw [if_neg h, ih]
      simp only [List.map_cons, List.mem_cons]
      constructor
      · exact fun hn hc => hc.elim (fun he => h he.symm) hn
      · exact fun hn hm => hn (Or.inr hm)

lemma lookupP_append_of_isSome (ps qs : List (Nat × Player)) (u : Nat)
    (h : (lookupP ps u).isSome = true) :
    lookupP (ps ++ qs) u = lookupP ps u := by
  induction ps with
  | nil => simp at h
  | cons q ps ih =>
    rw [List.cons_append, show q = (q.1, q.2) from rfl, lookupP_cons, lookupP_cons]
    by_cases hq : q.1 = u
    · rw [if_pos hq, if_pos hq]
    · rw [if_neg hq, if_neg hq]
      apply ih
      rw [show q = (q.1, q.2) from rfl, lookupP_cons, if_neg hq] at h
      exact h

lemma lookupP_append_of_none (ps qs : List (Nat × Player)) (u : Nat)
    (h : lookupP ps u = none) :
    lookupP (ps ++ qs) u = lookupP qs u := by
  induction ps with
  | nil => rfl
  | cons q ps ih =>
    rw [show q = (q.1, q.2) from rfl, lookupP_cons] at h
    by_cases hq : q.1 = u
    · rw [if_pos hq] at h; exact absurd h (by simp)
    · rw [if_neg hq] at h
      rw [List.cons_append, show q = (q.1, q.2) from rfl, lookupP_cons, if_neg hq]
      exact ih h

lemma setP_cons (v : Nat) (p : Player) (ps : List (Nat × Player)) (u : Nat) (r : Player) :
    setP ((v, p) :: ps) u r = (if v = u then (u, r) else (v, p)) :: setP ps u r := rfl

lemma lookupP_setP_ne (ps : List (Nat × Player)) (u : Nat) (r : Player) (v : Nat)
    (h : v ≠ u) :
    lookupP (setP ps u r) v = lookupP ps v := by
  induction ps with
  | nil => rfl
  | cons q ps ih =>
    rw [show q = (q.1, q.2) from rfl, setP_cons]
    by_cases hq : q.1 = u
    · rw [if_pos hq, lookupP_cons, lookupP_cons, if_neg (fun h2 => h h2.symm),
          if_neg (fun h2 => (h (hq ▸ h2).symm)), ih]
    · rw [if_neg hq, lookupP_cons, lookupP_cons]
      by_cases hv : q.1 = v
      · rw [if_pos hv, if_pos hv]
      · rw [if_neg hv, if_neg hv, ih]

lemma lookupP_setP_self (ps : List (Nat × Player)) (u : Nat) (r : Player)
    (h : (lookupP ps u).isSome = true) :
    lookupP (setP ps u r) u = some r := by
  induction ps with
  | nil => simp at h
  | cons q ps ih =>
    rw [show q = (q.1, q.2) from rfl, setP_cons]
    by_cases hq : q.1 = u
    · rw [if_pos hq, lookupP_cons, if_pos rfl]
    · rw [if_neg hq, lookupP_cons, if_neg hq]
      apply ih
      rw [show q = (q.1, q.2) from rfl, lookupP_cons, if_neg hq] at h
      exact h

lemma keys_setP (ps : List (Nat × Player)) (u : Nat) (r : Player) :
    (setP ps u r).map Prod.fst = ps.map Prod.fst := by
  unfold setP
  rw [List.map_map]
  apply List.map_congr_left
  intro q _
  by_cases hq : q.1 = u <;> simp [hq]

lemma mem_setP (ps : List (Nat × Player)) (u : Nat) (r : Player) (q' : Nat × Player)
    (h : q' ∈ setP ps u r) :
    q' = (u, r) ∨ (q' ∈ ps ∧ q'.1 ≠ u) := by
  unfold setP at h
  rw [List.mem_map] at h
  obtain ⟨q, hq, hq'⟩ := h
  by_cases he : q.1 = u
  · rw [if_pos he] at hq'
    exact Or.inl hq'.symm
  · rw [if_neg he] at hq'
    exact Or.inr ⟨hq' ▸ hq, hq' ▸ he⟩

lemma lookupP_mem (ps : List (Nat × Player)) (u : Nat) (p : Player)
    (h : lookupP ps u = some p) : (u, p) ∈ ps := by
  unfold lookupP at h
  cases hf : ps.find? (fun q => q.1 == u) with
  | none => rw [hf] at h; exact absurd h (by simp)
  | some q =>
    rw [hf] at h
    have hq : q ∈ ps := List.mem_of_find?_eq_some hf
    have hqu := List.find?_some hf
    have : q = (u, p) := by
      have h1 : q.1 = u := by simpa using hqu
      have h2 : q.2 = p := by simpa using h
      rw [show q = (q.1, q.2) from rfl, h1, h2]
    exact this ▸ hq

lemma lookupP_self_of_nodup (ps : List (Nat × Player))
    (hnd : (ps.map Prod.fst).Nodup) (q : Nat × Player) (hq : q ∈ ps) :
    lookupP ps q.1 = some q.2 := by
  induction ps with
  | nil => exact absurd hq (List.not_mem_nil q)
  | cons a ps ih =>
    rw [List.map_cons, List.nodup_cons] at hnd
    rcases List.mem_cons.mp hq with heq | hmem
    · subst heq
      rw [show q = (q.1, q.2) from rfl, lookupP_cons, if_pos rfl]
    · have hne : a.1 ≠ q.1 := by
        intro he
        exact hnd.1 (he ▸ List.mem_map_of_mem Prod.fst hmem)
      rw [show a = (a.1, a.2) from rfl, lookupP_cons, if_neg hne]
      exact ih hnd.2 hmem

end Sutord
namespace Sutord

/-! ## Case equations for the Game operations -/

lemma Player.add_answer_rank (p : Player) (w h : List Char) :
    (p.add_answer w h).rank = p.rank := rfl

lemma Player.add_answer_left (p : Player) (w h : List Char) :
    (p.add_answer w h).left = p.left := rfl

lemma Player.rank_set_found (p : Player) (r : Int) :
    ({ p with rank := r } : Player).found = p.found := rfl

lemma add_answer_eq_unknown {g : Game} {u : Nat} (raw : List Char)
    (hl : lookupP g.players u = none) :
    g.add_answer u raw = ((false, none), g) := by
  unfold Game.add_answer
  rw [hl]

lemma add_answer_eq_over {g : Game} {u : Nat} {p : Player} (raw : List Char)
    (hl : lookupP g.players u = some p) (ho : p.over = true) :
    g.add_answer u raw = ((false, none), g) := by
  unfold Game.add_answer
  rw [hl]
  simp [ho]

lemma add_answer_eq_short {g : Game} {u : Nat} {p : Player} {raw : List Char}
    (hl : lookupP g.players u = some p) (ho : p.over = false)
    (hlen : (normalize raw).length < g.hidden_word.length) :
    g.add_answer u raw = ((false, some GuessError.tooShort), g) := by
  unfold Game.add_answer
  rw [hl]
  simp [ho, hlen]

lemma add_answer_eq_long {g : Game} {u : Nat} {p : Player} {raw : List Char}
    (hl : lookupP g.players u = some p) (ho : p.over = false)
    (hlen : g.hidden_word.length < (normalize raw).length) :
    g.add_answer u raw = ((false, some GuessError.tooLong), g) := by
  unfold Game.add_answer
  rw [hl]
  have h1 : ¬ ((normalize raw).length < g.hidden_word.length) := by omega
  simp [ho, h1, hlen]

lemma add_answer_eq_nodict {g : Game} {u : Nat} {p : Player} {raw : List Char}
    (hl : lookupP g.players u = some p) (ho : p.over = false)
    (hlen : (normalize raw).length = g.hidden_word.length)
    (hd : g.dict (normalize raw) = false) :
    g.add_answer u raw = ((false, some GuessError.notInDictionary), g) := by
  unfold Game.add_answer
  rw [hl]
  have h1 : ¬ ((normalize raw).length < g.hidden_word.length) := by omega
  have h2 : ¬ (g.hidden_word.length < (normalize raw).length) := by omega
  simp [ho, h1, h2, hd]

lemma add_answer_eq_accept_found {g : Game} {u : Nat} {p : Player} {raw : List Char}
    (hl : lookupP g.players u = some p) (ho : p.over = false)
    (hlen : (normalize raw).length = g.hidden_word.length)
    (hd : g.dict (normalize raw) = true)
    (hf : (p.add_answer (normalize raw) g.hidden_word).found = true) :
    g.add_answer u raw =
      ((true, none),
       { g with
         players := setP g.players u
           { p.add_answer (normalize raw) g.hidden_word with rank := g.next_rank },
         next_rank := g.next_rank + 1 }) := by
  unfold Game.add_answer
  rw [hl]
  have h1 : ¬ ((normalize raw).length < g.hidden_word.length) := by omega
  have h2 : ¬ (g.hidden_word.length < (normalize raw).length) := by omega
  simp [ho, h1, h2, hd, hf]

lemma add_answer_eq_accept_notfound {g : Game} {u : Nat} {p : Player} {raw : List Char}
    (hl : lookupP g.players u = some p) (ho : p.over = false)
    (hlen : (normalize raw).length = g.hidden_word.length)
    (hd : g.dict (normalize raw) = true)
    (hf : (p.add_answer (normalize raw) g.hidden_word).found = false) :
    g.add_answer u raw =
      ((true, none),
       { g with players := setP g.players u (p.add_answer (normalize raw) g.hidden_word) }) := by
  unfold Game.add_answer
  rw [hl]
  have h1 : ¬ ((normalize raw).length < g.hidden_word.length) := by omega
  have h2 : ¬ (g.hidden_word.length < (normalize raw).length) := by omega
  simp [ho, h1, h2, hd, hf]

lemma remove_player_eq_unknown {g : Game} {u : Nat}
    (hl : lookupP g.players u = none) :
    g.remove_player u = (false, g) := by
  unfold Game.remove_player
  rw [hl]

lemma remove_player_eq_over {g : Game} {u : Nat} {p : Player}
    (hl : lookupP g.players u = some p) (ho : p.over = true) :
    g.remove_player u = (false, g) := by
  unfold Game.remove_player
  rw [hl]
  simp [ho]

lemma remove_player_eq_accept {g : Game} {u : Nat} {p : Player}
    (hl : lookupP g.players u = some p) (ho : p.over = false) :
    g.remove_player u = (true, { g with players := setP g.players u { p with left := true } }) := by
  unfold Game.remove_player
  rw [hl]
  simp [ho]

lemma add_player_eq_present {g : Game} {u : Nat}
    (hl : (lookupP g.players u).isSome = true) :
    g.add_player u = (false, g) := by
  unfold Game.add_player
  rw [if_pos hl]

lemma add_player_eq_fresh {g : Game} {u : Nat}
    (hl : lookupP g.players u = none) :
    g.add_player u =
      (true, { g with players := g.players ++ [(u, Player.init g.hidden_word)] }) := by
  unfold Game.add_player
  rw [if_neg (by rw [hl]; simp)]

end Sutord
namespace Sutord

lemma isSome_eq_false_iff_none {p : Option Player} : p.isSome = false ↔ p = none := by
  cases p <;> simp

lemma Player.init_not_over (hidden : List Char) (h : 2 ≤ hidden.length) :
    (Player.init hidden).over = false := by
  obtain ⟨a, t, rfl⟩ : ∃ a t, hidden = a :: t := by
    cases hidden with
    | nil => simp at h
    | cons a t => exact ⟨a, t, rfl⟩
  obtain ⟨b, t2, rfl⟩ : ∃ b t2, t = b :: t2 := by
    cases t with
    | nil => simp at h
    | cons b t2 => exact ⟨b, t2, rfl⟩
  unfold Player.over Player.found Player.init
  simp [List.enum, List.enumFrom]

/-- C10: `Game.add_player` rejects exactly when the id is already present
(the duplicate check is the sole rejection condition); a rejected call
leaves the session unchanged; an accepted call appends a fresh
`Player`; and with a hidden word of length at least 2 an accepted late
join reopens even a finished session (`Game.over` becomes false). -/
theorem spec_C10_add_player (g : Game) (u : Nat) :
    ((g.add_player u).1 = false ↔ (lookupP g.players u).isSome = true) ∧
    ((g.add_player u).1 = false → (g.add_player u).2 = g) ∧
    ((g.add_player u).1 = true →
      (g.add_player u).2 = { g with players := g.players ++ [(u, Player.init g.hidden_word)] }) ∧
    (2 ≤ g.hidden_word.length → (g.add_player u).1 = true →
      ((g.add_player u).2).over = false) := by
  cases hsome : (lookupP g.players u).isSome with
  | true =>
    rw [add_player_eq_present hsome]
    refine ⟨by simp [hsome], fun _ => rfl, fun hc => absurd hc (by simp), fun _ hc => absurd hc (by simp)⟩
  | false =>
    have hnone : lookupP g.players u = none := isSome_eq_false_iff_none.mp hsome
    rw [add_player_eq_fresh hnone]
    refine ⟨by simp [hsome], fun hc => absurd hc (by simp), fun _ => rfl, ?_⟩
    intro hlen _
    unfold Game.over
    simp only [List.all_append, List.all_cons, List.all_nil, Bool.and_true]
    rw [Player.init_not_over g.hidden_word hlen]
    simp

/-- Witness for C10: a fresh join into a session whose only player is
already over is accepted and reopens the session. -/
theorem spec_C10_add_player_witness :
    (((Game.init (fun _ => true) ['a','b'] []).add_player 7).1 = false ↔
      (lookupP (Game.init (fun _ => true) ['a','b'] []).players 7).isSome = true) ∧
    (2 ≤ (Game.init (fun _ => true) ['a','b'] []).hidden_word.length ∧
      (((Game.init (fun _ => true) ['a','b'] []).add_player 7).1 = true ∧
        (((Game.init (fun _ => true) ['a','b'] []).add_player 7).2).over = false)) :=
  ⟨(spec_C10_add_player (Game.init (fun _ => true) ['a','b'] []) 7).1,
   by decide,
   by decide,
   (spec_C10_add_player (Game.init (fun _ => true) ['a','b'] []) 7).2.2.2 (by decide) (by decide)⟩

end Sutord
namespace Sutord

lemma over_preserved_op (g : Game) (u : Nat) (p : Player)
    (hl : lookupP g.players u = some p) (hover : p.over = true) (op : Op) :
    lookupP (g.applyOp op).players u = some p := by
  cases op with
  | join v =>
    show lookupP (g.add_player v).2.players u = some p
    by_cases hv : (lookupP g.players v).isSome = true
    · rw [add_player_eq_present hv]
      exact hl
    · have hvn : lookupP g.players v = none :=
        isSome_eq_false_iff_none.mp (by revert hv; cases (lookupP g.players v).isSome <;> simp)
      rw [add_player_eq_fresh hvn]
      show lookupP (g.players ++ [(v, Player.init g.hidden_word)]) u = some p
      rw [lookupP_append_of_isSome _ _ _ (by rw [hl]; rfl)]
      exact hl
  | leave v =>
    show lookupP (g.remove_player v).2.players u = some p
    by_cases hvu : v = u
    · subst hvu
      rw [remove_player_eq_over hl hover]
      exact hl
    · cases hlv : lookupP g.players v with
      | none =>
        rw [remove_player_eq_unknown hlv]
        exact hl
      | some q =>
        by_cases hoq : q.over = true
        · rw [remove_player_eq_over hlv hoq]
          exact hl
        · rw [remove_player_eq_accept hlv (by revert hoq; cases q.over <;> simp)]
          show lookupP (setP g.players v { q with left := true }) u = some p
          rw [lookupP_setP_ne _ _ _ _ (fun h => hvu h.symm)]
          exact hl
  | guess v raw =>
    show lookupP (g.add_answer v raw).2.players u = some p
    by_cases hvu : v = u
    · subst hvu
      rw [add_answer_eq_over raw hl hover]
      exact hl
    · cases hlv : lookupP g.players v with
      | none =>
        rw [add_answer_eq_unknown raw hlv]
        exact hl
      | some q =>
        by_cases hoq : q.over = true
        · rw [add_answer_eq_over raw hlv hoq]
          exact hl
        · have hoq' : q.over = false := by revert hoq; cases q.over <;> simp
          by_cases h1 : (normalize raw).length < g.hidden_word.length
          · rw [add_answer_eq_short hlv hoq' h1]
            exact hl
          · by_cases h2 : g.hidden_word.length < (normalize raw).length
            · rw [add_answer_eq_long hlv hoq' h2]
              exact hl
            · have h3 : (normalize raw).length = g.hidden_word.length := by omega
              by_cases h4 : g.dict (normalize raw) = true
              · by_cases h5 : (q.add_answer (normalize raw) g.hidden_word).found = true
                · rw [add_answer_eq_accept_found hlv hoq' h3 h4 h5]
                  show lookupP (setP g.players v _) u = some p
                  rw [lookupP_setP_ne _ _ _ _ (fun h => hvu h.symm)]
                  exact hl
                · rw [add_answer_eq_accept_notfound hlv hoq' h3 h4
                      (by revert h5; cases (q.add_answer (normalize raw) g.hidden_word).found <;> simp)]
                  show lookupP (setP g.players v _) u = some p
                  rw [lookupP_setP_ne _ _ _ _ (fun h => hvu h.symm)]
                  exact hl
              · rw [add_answer_eq_nodict hlv hoq' h3
                    (by revert h4; cases g.dict (normalize raw) <;> simp)]
                exact hl

lemma left_preserved_run (ops : List Op) : ∀ (g : Game) (u : Nat) (p : Player),
    lookupP g.players u = some p → p.left = true →
    lookupP (g.run ops).players u = some p := by
  induction ops with
  | nil => intro g u p hl _; exact hl
  | cons op ops ih =>
    intro g u p hl hleft
    have hover : p.over = true := by
      unfold Player.over
      rw [hleft, Bool.or_true]
    show lookupP ((g.applyOp op).run ops).players u = some p
    exact ih (g.applyOp op) u p (over_preserved_op g u p hl hover op) hleft

/-- C7: `Game.remove_player` rejects when the player is unknown or already
over, and never changes any player's rank; once a player's `left` flag is
set, that player's whole state — in particular a rank of −1 — persists
under every subsequent sequence of operations (every later guess by the
player is rejected as already over). -/
theorem spec_C7_remove_player (g : Game) (u : Nat) (p : Player) :
    ((lookupP g.players u = none ∨ (∃ q, lookupP g.players u = some q ∧ q.over = true)) →
      g.remove_player u = (false, g)) ∧
    (∀ v, rankOf (g.remove_player u).2 v = rankOf g v) ∧
    (lookupP g.players u = some p → p.left = true →
      ∀ ops, lookupP (g.run ops).players u = some p ∧
        (p.rank = -1 → rankOf (g.run ops) u = some (-1))) := by
  refine ⟨?_, ?_, ?_⟩
  · intro hrej
    rcases hrej with hn | ⟨q, hq, hover⟩
    · exact remove_player_eq_unknown hn
    · exact remove_player_eq_over hq hover
  · intro v
    cases hl : lookupP g.players u with
    | none => rw [remove_player_eq_unknown hl]
    | some q =>
      by_cases hoq : q.over = true
      · rw [remove_player_eq_over hl hoq]
      · rw [remove_player_eq_accept hl (by revert hoq; cases q.over <;> simp)]
        unfold rankOf
        by_cases hvu : v = u
        · subst hvu
          show (lookupP (setP g.players v { q with left := true }) v).map _ =
            (lookupP g.players v).map _
          rw [lookupP_setP_self _ _ _ (by rw [hl]; rfl), hl]
          rfl
        · show (lookupP (setP g.players u { q with left := true }) v).map _ =
            (lookupP g.players v).map _
          rw [lookupP_setP_ne _ _ _ _ hvu]
  · intro hl hleft ops
    have hrun := left_preserved_run ops g u p hl hleft
    refine ⟨hrun, fun hrank => ?_⟩
    unfold rankOf
    rw [hrun]
    simp [hrank]

/-- Witness for C7: a left player's entry survives a later guess by that
player, keeping rank −1. -/
theorem spec_C7_remove_player_witness :
    lookupP leftGame.players 0 = some leftPlayer ∧
    rankOf (leftGame.run [Op.guess 0 ['a','b']]) 0 = some (-1) :=
  ⟨by decide,
   ((spec_C7_remove_player leftGame 0 leftPlayer).2.2 (by decide) (by decide)
      [Op.guess 0 ['a','b']]).2 (by decide)⟩

end Sutord
namespace Sutord

@[simp] lemma withDict_players (g : Game) (d : List Char → Bool) :
    (g.withDict d).players = g.players := rfl

@[simp] lemma withDict_hidden_word (g : Game) (d : List Char → Bool) :
    (g.withDict d).hidden_word = g.hidden_word := rfl

/-- C4: a rejected `Game.add_answer` call mutates nothing, and validation
short-circuits in the fixed order: unknown player, player already over,
normalized guess too short, too long, dictionary membership.  In
particular, on a length mismatch the result does not depend on the
dictionary at all: the same outcome is produced under every dictionary
oracle, so length is checked before membership. -/
theorem spec_C4_rejection_atomic (g : Game) (u : Nat) (raw : List Char) :
    (((g.add_answer u raw).1).1 = false → (g.add_answer u raw).2 = g) ∧
    (lookupP g.players u = none → (g.add_answer u raw).1 = (false, none)) ∧
    (∀ p, lookupP g.players u = some p → p.over = true →
      (g.add_answer u raw).1 = (false, none)) ∧
    (∀ p, lookupP g.players u = some p → p.over = false →
      ((normalize raw).length < g.hidden_word.length →
        (g.add_answer u raw).1 = (false, some GuessError.tooShort)) ∧
      (g.hidden_word.length < (normalize raw).length →
        (g.add_answer u raw).1 = (false, some GuessError.tooLong)) ∧
      ((normalize raw).length = g.hidden_word.length → g.dict (normalize raw) = false →
        (g.add_answer u raw).1 = (false, some GuessError.notInDictionary))) ∧
    ((normalize raw).length ≠ g.hidden_word.length → ∀ d : List Char → Bool,
      ((g.withDict d).add_answer u raw).1 = (g.add_answer u raw).1 ∧
      ((g.withDict d).add_answer u raw).2 = ((g.add_answer u raw).2).withDict d) := by
  refine ⟨?_, ?_, ?_, ?_, ?_⟩
  · intro hrej
    cases hl : lookupP g.players u with
    | none => rw [add_answer_eq_unknown raw hl]
    | some p =>
      by_cases ho : p.over = true
      · rw [add_answer_eq_over raw hl ho]
      · have ho' : p.over = false := by revert ho; cases p.over <;> simp
        by_cases h1 : (normalize raw).length < g.hidden_word.length
        · rw [add_answer_eq_short hl ho' h1]
        · by_cases h2 : g.hidden_word.length < (normalize raw).length
          · rw [add_answer_eq_long hl ho' h2]
          · have h3 : (normalize raw).length = g.hidden_word.length := by omega
            by_cases h4 : g.dict (normalize raw) = true
            · by_cases h5 : (p.add_answer (normalize raw) g.hidden_word).found = true
              · rw [add_answer_eq_accept_found hl ho' h3 h4 h5] at hrej
                exact absurd hrej (by simp)
              · have h5' : (p.add_answer (normalize raw) g.hidden_word).found = false := by
                  revert h5; cases (p.add_answer (normalize raw) g.hidden_word).found <;> simp
                rw [add_answer_eq_accept_notfound hl ho' h3 h4 h5'] at hrej
                exact absurd hrej (by simp)
            · have h4' : g.dict (normalize raw) = false := by
                revert h4; cases g.dict (normalize raw) <;> simp
              rw [add_answer_eq_nodict hl ho' h3 h4']
  · intro hn
    rw [add_answer_eq_unknown raw hn]
  · intro p hl ho
    rw [add_answer_eq_over raw hl ho]
  · intro p hl ho
    refine ⟨?_, ?_, ?_⟩
    · intro h1
      rw [add_answer_eq_short hl ho h1]
    · intro h2
      rw [add_answer_eq_long hl ho h2]
    · intro h3 h4
      rw [add_answer_eq_nodict hl ho h3 h4]
  · intro hne d
    have hld : lookupP (g.withDict d).players u = lookupP g.players u := rfl
    cases hl : lookupP g.players u with
    | none =>
      rw [add_answer_eq_unknown raw hl,
          add_answer_eq_unknown raw (g := g.withDict d) (by rw [hld, hl])]
      exact ⟨rfl, rfl⟩
    | some p =>
      by_cases ho : p.over = true
      · rw [add_answer_eq_over raw hl ho,
            add_answer_eq_over raw (g := g.withDict d) (by rw [hld, hl]) ho]
        exact ⟨rfl, rfl⟩
      · have ho' : p.over = false := by revert ho; cases p.over <;> simp
        by_cases h1 : (normalize raw).length < g.hidden_word.length
        · rw [add_answer_eq_short hl ho' h1,
              add_answer_eq_short (g := g.withDict d) (by rw [hld, hl]) ho'
                (by rw [withDict_hidden_word]; exact h1)]
          exact ⟨rfl, rfl⟩
        · have h2 : g.hidden_word.length < (normalize raw).length := by omega
          rw [add_answer_eq_long hl ho' h2,
              add_answer_eq_long (g := g.withDict d) (by rw [hld, hl]) ho'
                (by rw [withDict_hidden_word]; exact h2)]
          exact ⟨rfl, rfl⟩

/-- Witness for C4: an over player's guess is rejected with no reason and
no state change, on a concrete session. -/
theorem spec_C4_rejection_atomic_witness :
    lookupP leftGame.players 0 = some leftPlayer ∧
    (leftGame.add_answer 0 ['a','b']).1 = (false, none) :=
  ⟨by decide,
   (spec_C4_rejection_atomic leftGame 0 ['a','b']).2.2.1 leftPlayer (by decide) (by decide)⟩

end Sutord
namespace Sutord

/-- C6: `Game.get_sorted_players` returns all players (a permutation of the
player map's values) sorted ascending by the key that substitutes the
current `next_rank` for any non-positive rank; consequently, whenever every
assigned rank is below `next_rank` (which every reachable session state
satisfies), no unranked player ever precedes a ranked one — unranked
players sort to the tail, as if they were ranked next. -/
theorem spec_C6_sorted_players (g : Game)
    (hb : ∀ q ∈ g.players, 0 < q.2.rank → q.2.rank < g.next_rank) :
    (g.get_sorted_players).Perm (g.players.map (fun q => q.2)) ∧
    (g.get_sorted_players).Pairwise
      (fun a b => sortKey g.next_rank a ≤ sortKey g.next_rank b) ∧
    (g.get_sorted_players).Pairwise
      (fun a b => ¬ (0 < a.rank) → ¬ (0 < b.rank)) := by
  have htrans : ∀ a b c : Player,
      (fun a b => decide (sortKey g.next_rank a ≤ sortKey g.next_rank b)) a b →
      (fun a b => decide (sortKey g.next_rank a ≤ sortKey g.next_rank b)) b c →
      (fun a b => decide (sortKey g.next_rank a ≤ sortKey g.next_rank b)) a c := by
    intro a b c hab hbc
    simp only [decide_eq_true_eq] at hab hbc ⊢
    omega
  have htotal : ∀ a b : Player,
      ((fun a b => decide (sortKey g.next_rank a ≤ sortKey g.next_rank b)) a b ||
       (fun a b => decide (sortKey g.next_rank a ≤ sortKey g.next_rank b)) b a) = true := by
    intro a b
    simp only [Bool.or_eq_true, decide_eq_true_eq]
    omega
  have hsorted := List.sorted_mergeSort htrans htotal (g.players.map (fun q => q.2))
  have hsorted' : (g.get_sorted_players).Pairwise
      (fun a b => sortKey g.next_rank a ≤ sortKey g.next_rank b) := by
    unfold Game.get_sorted_players
    exact hsorted.imp (fun hab => by simpa using hab)
  refine ⟨List.mergeSort_perm _ _, hsorted', ?_⟩
  have hmem : ∀ a ∈ g.get_sorted_players, 0 < a.rank → a.rank < g.next_rank := by
    intro a ha
    unfold Game.get_sorted_players at ha
    rw [List.mem_mergeSort, List.mem_map] at ha
    obtain ⟨q, hq, rfl⟩ := ha
    exact hb q hq
  apply hsorted'.imp_of_mem
  intro a b hma hmb hab hnra hrb
  have hka : sortKey g.next_rank a = g.next_rank := by
    unfold sortKey
    rw [if_neg hnra]
  have hkb : sortKey g.next_rank b = b.rank := by
    unfold sortKey
    rw [if_pos hrb]
  have := hmem b hmb hrb
  omega

/-- Witness for C6 on a two-player session: one ranked player, one
unranked. -/
theorem spec_C6_sorted_players_witness :
    (∀ q ∈ leftGame.players, 0 < q.2.rank → q.2.rank < leftGame.next_rank) ∧
    (leftGame.get_sorted_players).Pairwise
      (fun a b => ¬ (0 < a.rank) → ¬ (0 < b.rank)) :=
  ⟨by decide, (spec_C6_sorted_players leftGame (by decide)).2.2⟩

end Sutord
namespace Sutord

/-! ## The session invariant and the rank-assignment trace -/

lemma rankChangesAux_congr (ps : List (Nat × Player)) (A B : List (Nat × Player)) (nr : Int)
    (h : ∀ q ∈ ps, lookupP A q.1 = lookupP B q.1) :
    rankChangesAux ps A nr = rankChangesAux ps B nr := by
  unfold rankChangesAux
  induction ps with
  | nil => rfl
  | cons q ps ih =>
    rw [List.filterMap_cons, List.filterMap_cons,
        h q (List.mem_cons_self q ps),
        ih (fun q' hq' => h q' (List.mem_cons_of_mem q hq'))]

lemma rankChangesAux_eq_nil (ps : List (Nat × Player)) (A : List (Nat × Player)) (nr : Int)
    (h : ∀ q ∈ ps, ∀ p', lookupP A q.1 = some p' → p'.rank = q.2.rank) :
    rankChangesAux ps A nr = [] := by
  unfold rankChangesAux
  rw [List.filterMap_eq_nil_iff]
  intro q hq
  cases hl : lookupP A q.1 with
  | none => rfl
  | some p' =>
    have : p'.rank = q.2.rank := h q hq p' hl
    simp [this]

lemma rankChangesAux_self (ps : List (Nat × Player)) (nr : Int)
    (hnd : (ps.map Prod.fst).Nodup) :
    rankChangesAux ps ps nr = [] := by
  apply rankChangesAux_eq_nil
  intro q hq p' hl
  rw [lookupP_self_of_nodup ps hnd q hq] at hl
  cases hl
  rfl

lemma rankChangesAux_setP_same_rank (ps : List (Nat × Player)) (u : Nat) (p p' : Player)
    (nr : Int) (hnd : (ps.map Prod.fst).Nodup) (hl : lookupP ps u = some p)
    (hr : p'.rank = p.rank) :
    rankChangesAux ps (setP ps u p') nr = [] := by
  apply rankChangesAux_eq_nil
  intro q hq p'' hl''
  by_cases hqu : q.1 = u
  · have hq2 : q.2 = p := by
      have := lookupP_self_of_nodup ps hnd q hq
      rw [hqu, hl] at this
      cases this
      rfl
    rw [hqu, lookupP_setP_self ps u p' (by rw [hl]; rfl)] at hl''
    cases hl''
    rw [hr, hq2]
  · rw [lookupP_setP_ne ps u p' q.1 hqu, lookupP_self_of_nodup ps hnd q hq] at hl''
    cases hl''
    rfl

lemma rankChangesAux_setP_new_rank (ps : List (Nat × Player)) (u : Nat) (p p' : Player)
    (nr : Int) (hnd : (ps.map Prod.fst).Nodup) (hl : lookupP ps u = some p)
    (hr : p'.rank ≠ p.rank) :
    rankChangesAux ps (setP ps u p') nr =
      [⟨u, p.rank, p'.rank, p.found, p'.found, nr⟩] := by
  induction ps with
  | nil => exact absurd hl (by simp)
  | cons a ps ih =>
    rw [List.map_cons, List.nodup_cons] at hnd
    rw [show a = (a.1, a.2) from rfl, setP_cons]
    by_cases hau : a.1 = u
    · rw [if_pos hau]
      have ha2 : a.2 = p := by
        rw [show a = (a.1, a.2) from rfl, lookupP_cons, if_pos hau] at hl
        cases hl
        rfl
      unfold rankChangesAux
      rw [List.filterMap_cons]
      have hlu : lookupP ((u, p') :: setP ps u p') a.1 = some p' := by
        rw [lookupP_cons, if_pos hau.symm]
      rw [hlu]
      simp only [ha2, hau, hr, ite_true, ne_eq, not_false_eq_true]
      congr 1
      rw [List.filterMap_eq_nil_iff]
      intro q hq
      have hqa : q.1 ≠ u := by
        intro he
        have hmem : q.1 ∈ List.map Prod.fst ps := List.mem_map_of_mem Prod.fst hq
        rw [he, ← hau] at hmem
        exact hnd.1 hmem
      rw [lookupP_cons, if_neg (fun h2 => hqa h2.symm),
          lookupP_setP_ne ps u p' q.1 hqa,
          lookupP_self_of_nodup ps hnd.2 q hq]
      simp
    · rw [if_neg hau]
      have hl' : lookupP ps u = some p := by
        rw [show a = (a.1, a.2) from rfl, lookupP_cons, if_neg hau] at hl
        exact hl
      unfold rankChangesAux
      rw [List.filterMap_cons]
      have hla : lookupP ((a.1, a.2) :: setP ps u p') a.1 = some a.2 := by
        rw [lookupP_cons, if_pos rfl]
      rw [hla]
      simp only [ne_eq, not_true_eq_false, ite_false]
      show rankChangesAux ps ((a.1, a.2) :: setP ps u p') nr = _
      have hcongr : rankChangesAux ps ((a.1, a.2) :: setP ps u p') nr =
          rankChangesAux ps (setP ps u p') nr := by
        apply rankChangesAux_congr
        intro q hq
        have hqa : q.1 ≠ a.1 := by
          intro he
          have hmem : q.1 ∈ List.map Prod.fst ps := List.mem_map_of_mem Prod.fst hq
          rw [he] at hmem
          exact hnd.1 hmem
        rw [lookupP_cons, if_neg (fun h2 => hqa h2.symm)]
      rw [hcongr, ih hnd.2 hl']

end Sutord
namespace Sutord

lemma over_false_parts (p : Player) (h : p.over = false) :
    p.found = false ∧ p.left = false := by
  unfold Player.over at h
  exact Bool.or_eq_false_iff.mp h

lemma Inv_rank_of_not_found (g : Game) (hInv : Inv g) (u : Nat) (p : Player)
    (hl : lookupP g.players u = some p) (hf : p.found = false) : p.rank = -1 := by
  have hmem := lookupP_mem g.players u p hl
  rcases hInv.2.2 (u, p) hmem with h | h
  · exact h
  · rw [hf] at h
    exact absurd h.2.2 (by simp)

lemma step_join (g : Game) (u : Nat) (hInv : Inv g) :
    rankChanges g (g.applyOp (Op.join u)) = [] ∧
    (g.applyOp (Op.join u)).next_rank = g.next_rank ∧
    Inv (g.applyOp (Op.join u)) := by
  simp only [Game.applyOp]
  by_cases hv : (lookupP g.players u).isSome = true
  · rw [add_player_eq_present hv]
    exact ⟨rankChangesAux_self g.players g.next_rank hInv.1, rfl, hInv⟩
  · have hvn : lookupP g.players u = none :=
      isSome_eq_false_iff_none.mp (by revert hv; cases (lookupP g.players u).isSome <;> simp)
    rw [add_player_eq_fresh hvn]
    refine ⟨?_, rfl, ?_, ?_, ?_⟩
    · apply rankChangesAux_eq_nil
      intro q hq p' hl'
      rw [lookupP_append_of_isSome _ _ _
            (by rw [lookupP_self_of_nodup g.players hInv.1 q hq]; rfl),
          lookupP_self_of_nodup g.players hInv.1 q hq] at hl'
      cases hl'
      rfl
    · show ((g.players ++ [(u, Player.init g.hidden_word)]).map Prod.fst).Nodup
      rw [List.map_append]
      rw [List.nodup_append]
      refine ⟨hInv.1, by simp, ?_⟩
      intro a ha hb
      rw [List.map_singleton, List.mem_singleton] at hb
      subst hb
      exact (lookupP_eq_none_iff g.players a).mp hvn ha
    · exact hInv.2.1
    · intro q hq
      rcases List.mem_append.mp hq with hmem | hmem
      · exact hInv.2.2 q hmem
      · rw [List.mem_singleton] at hmem
        subst hmem
        exact Or.inl rfl

lemma step_leave (g : Game) (u : Nat) (hInv : Inv g) :
    rankChanges g (g.applyOp (Op.leave u)) = [] ∧
    (g.applyOp (Op.leave u)).next_rank = g.next_rank ∧
    Inv (g.applyOp (Op.leave u)) := by
  simp only [Game.applyOp]
  cases hl : lookupP g.players u with
  | none =>
    rw [remove_player_eq_unknown hl]
    exact ⟨rankChangesAux_self g.players g.next_rank hInv.1, rfl, hInv⟩
  | some p =>
    by_cases ho : p.over = true
    · rw [remove_player_eq_over hl ho]
      exact ⟨rankChangesAux_self g.players g.next_rank hInv.1, rfl, hInv⟩
    · rw [remove_player_eq_accept hl (by revert ho; cases p.over <;> simp)]
      refine ⟨?_, rfl, ?_, hInv.2.1, ?_⟩
      · exact rankChangesAux_setP_same_rank g.players u p { p with left := true }
          g.next_rank hInv.1 hl rfl
      · show ((setP g.players u { p with left := true }).map Prod.fst).Nodup
        rw [keys_setP]
        exact hInv.1
      · intro q hq
        rcases mem_setP g.players u { p with left := true } q hq with hq' | hq'
      
        · subst hq'
          have := hInv.2.2 (u, p) (lookupP_mem g.players u p hl)
          exact this
        · exact hInv.2.2 q hq'.1


lemma step_guess (g : Game) (u : Nat) (raw : List Char) (hInv : Inv g) :
    (rankChanges g (g.applyOp (Op.guess u raw)) = [] ∧
     (g.applyOp (Op.guess u raw)).next_rank = g.next_rank ∧
     Inv (g.applyOp (Op.guess u raw))) ∨
    (rankChanges g (g.applyOp (Op.guess u raw)) =
       [⟨u, -1, g.next_rank, false, true, g.next_rank⟩] ∧
     (g.applyOp (Op.guess u raw)).next_rank = g.next_rank + 1 ∧
     Inv (g.applyOp (Op.guess u raw)) ∧
     foundOf g u = some false ∧
     foundOf (g.applyOp (Op.guess u raw)) u = some true) := by
  simp only [Game.applyOp]
  cases hl : lookupP g.players u with
  | none =>
    rw [add_answer_eq_unknown raw hl]
    exact Or.inl ⟨rankChangesAux_self g.players g.next_rank hInv.1, rfl, hInv⟩
  | some p =>
    by_cases ho : p.over = true
    · rw [add_answer_eq_over raw hl ho]
      exact Or.inl ⟨rankChangesAux_self g.players g.next_rank hInv.1, rfl, hInv⟩
    · have ho' : p.over = false := by revert ho; cases p.over <;> simp
      obtain ⟨hpf, hpl⟩ := over_false_parts p ho'
      have hprank : p.rank = -1 := Inv_rank_of_not_found g hInv u p hl hpf
      by_cases h1 : (normalize raw).length < g.hidden_word.length
      · rw [add_answer_eq_short hl ho' h1]
        exact Or.inl ⟨rankChangesAux_self g.players g.next_rank hInv.1, rfl, hInv⟩
      · by_cases h2 : g.hidden_word.length < (normalize raw).length
        · rw [add_answer_eq_long hl ho' h2]
          exact Or.inl ⟨rankChangesAux_self g.players g.next_rank hInv.1, rfl, hInv⟩
        · have h3 : (normalize raw).length = g.hidden_word.length := by omega
          by_cases h4 : g.dict (normalize raw) = true
          · by_cases h5 : (p.add_answer (normalize raw) g.hidden_word).found = true
            · -- the player completes: a rank is handed out
              rw [add_answer_eq_accept_found hl ho' h3 h4 h5]
              refine Or.inr ⟨?_, rfl, ⟨?_, ?_, ?_⟩, ?_, ?_⟩
              · have hr : ({ p.add_answer (normalize raw) g.hidden_word with
                    rank := g.next_rank } : Player).rank ≠ p.rank := by
                  show g.next_rank ≠ p.rank
                  rw [hprank]
                  have h6 := hInv.2.1
                  omega
                show rankChangesAux g.players (setP g.players u
                    { p.add_answer (normalize raw) g.hidden_word with rank := g.next_rank })
                    g.next_rank = _
                rw [rankChangesAux_setP_new_rank g.players u p _ g.next_rank hInv.1 hl hr,
                    hprank, hpf]
                congr 2
              · show ((setP g.players u _).map Prod.fst).Nodup
                rw [keys_setP]
                exact hInv.1
              · show 1 ≤ g.next_rank + 1
                have := hInv.2.1
                omega
              · intro q hq
                rcases mem_setP _ _ _ q hq with hq' | hq'
                · subst hq'
                  refine Or.inr ⟨?_, ?_, ?_⟩
                  · show (1 : Int) ≤ g.next_rank
                    exact hInv.2.1
                  · show g.next_rank < g.next_rank + 1
                    omega
                  · show (p.add_answer (normalize raw) g.hidden_word).found = true
                    exact h5
                · rcases hInv.2.2 q hq'.1 with h | h
                  · exact Or.inl h
                  · refine Or.inr ⟨h.1, ?_, h.2.2⟩
                    show q.2.rank < g.next_rank + 1
                    have h7 := h.2.1
                    omega
              · unfold foundOf
                rw [hl]
                simp [hpf]
              · unfold foundOf
                show ((lookupP (setP g.players u _) u).map _) = _
                rw [lookupP_setP_self _ _ _ (by rw [hl]; rfl)]
                show some ({ p.add_answer (normalize raw) g.hidden_word with
                  rank := g.next_rank } : Player).found = some true
                rw [Player.rank_set_found, h5]
            · have h5' : (p.add_answer (normalize raw) g.hidden_word).found = false := by
                revert h5
                cases (p.add_answer (normalize raw) g.hidden_word).found <;> simp
              rw [add_answer_eq_accept_notfound hl ho' h3 h4 h5']
              refine Or.inl ⟨?_, rfl, ⟨?_, hInv.2.1, ?_⟩⟩
              · exact rankChangesAux_setP_same_rank g.players u p _ g.next_rank hInv.1 hl
                  (Player.add_answer_rank p _ _)
              · show ((setP g.players u _).map Prod.fst).Nodup
                rw [keys_setP]
                exact hInv.1
              · intro q hq
                rcases mem_setP _ _ _ q hq with hq' | hq'
                · subst hq'
                  refine Or.inl ?_
                  show (p.add_answer (normalize raw) g.hidden_word).rank = -1
                  rw [Player.add_answer_rank, hprank]
                · exact hInv.2.2 q hq'.1
          · have h4' : g.dict (normalize raw) = false := by
              revert h4
              cases g.dict (normalize raw) <;> simp
            rw [add_answer_eq_nodict hl ho' h3 h4']
            exact Or.inl ⟨rankChangesAux_self g.players g.next_rank hInv.1, rfl, hInv⟩

lemma found_persists_op (g : Game) (u : Nat) (op : Op)
    (h : foundOf g u = some true) : foundOf (g.applyOp op) u = some true := by
  unfold foundOf at h ⊢
  cases hl : lookupP g.players u with
  | none => rw [hl] at h; exact absurd h (by simp)
  | some p =>
    rw [hl] at h
    have hpf : p.found = true := by simpa using h
    have hover : p.over = true := by
      unfold Player.over
      rw [hpf, Bool.true_or]
    rw [over_preserved_op g u p hl hover op]
    simpa using h


lemma step_cases (g : Game) (op : Op) (hInv : Inv g) :
    (rankChanges g (g.applyOp op) = [] ∧
     (g.applyOp op).next_rank = g.next_rank ∧ Inv (g.applyOp op)) ∨
    (∃ u, rankChanges g (g.applyOp op) = [⟨u, -1, g.next_rank, false, true, g.next_rank⟩] ∧
     (g.applyOp op).next_rank = g.next_rank + 1 ∧ Inv (g.applyOp op) ∧
     foundOf g u = some false ∧ foundOf (g.applyOp op) u = some true) := by
  cases op with
  | join u => exact Or.inl (step_join g u hInv)
  | leave u => exact Or.inl (step_leave g u hInv)
  | guess u raw =>
    rcases step_guess g u raw hInv with h | h
    · exact Or.inl h
    · exact Or.inr ⟨u, h⟩

lemma trace_spec (ops : List Op) : ∀ (g : Game), Inv g →
    ((g.trace ops).map (fun e => e.rankAfter) =
      (List.range (g.trace ops).length).map (fun i : Nat => g.next_rank + (i : Int))) ∧
    ((g.trace ops).map (fun e => e.user)).Nodup ∧
    (∀ e ∈ g.trace ops, e.rankBefore = -1 ∧ e.foundBefore = false ∧ e.foundAfter = true ∧
       e.rankAfter = e.nextRankBefore ∧ foundOf g e.user ≠ some true) := by
  induction ops with
  | nil =>
    intro g _
    exact ⟨rfl, List.nodup_nil, fun e he => absurd he (List.not_mem_nil e)⟩
  | cons op ops ih =>
    intro g hInv
    have htr : g.trace (op :: ops) =
        rankChanges g (g.applyOp op) ++ (g.applyOp op).trace ops := rfl
    rcases step_cases g op hInv with ⟨hc, hnr, hInv1⟩ | ⟨u, hc, hnr, hInv1, hf0, hf1⟩
    · obtain ⟨ihA, ihB, ihC⟩ := ih (g.applyOp op) hInv1
      rw [htr, hc, List.nil_append]
      refine ⟨?_, ihB, ?_⟩
      · rw [ihA, hnr]
      · intro e he
        obtain ⟨e1, e2, e3, e4, e5⟩ := ihC e he
        exact ⟨e1, e2, e3, e4, fun hft => e5 (found_persists_op g e.user op hft)⟩
    · obtain ⟨ihA, ihB, ihC⟩ := ih (g.applyOp op) hInv1
      rw [htr, hc]
      refine ⟨?_, ?_, ?_⟩
      · simp only [List.singleton_append, List.map_cons, List.length_cons]
        rw [ihA, hnr, List.range_succ_eq_map, List.map_cons, List.map_map]
        congr 1
        · show g.next_rank = g.next_rank + ((0 : Nat) : Int)
          omega
        · apply List.map_congr_left
          intro i _
          show g.next_rank + 1 + (i : Int) = g.next_rank + ((Nat.succ i : Nat) : Int)
          push_cast
          ring
      · simp only [List.singleton_append, List.map_cons]
        rw [List.nodup_cons]
        refine ⟨?_, ihB⟩
        intro hmem
        rw [List.mem_map] at hmem
        obtain ⟨e, he, heu⟩ := hmem
        have := (ihC e he).2.2.2.2
        rw [heu, hf1] at this
        exact this rfl
      · intro e he
        rw [List.singleton_append, List.mem_cons] at he
        rcases he with he | he
        · subst he
          refine ⟨rfl, rfl, rfl, rfl, ?_⟩
          rw [show (⟨u, -1, g.next_rank, false, true, g.next_rank⟩ : RankEvent).user = u from rfl,
              hf0]
          simp
        · obtain ⟨e1, e2, e3, e4, e5⟩ := ihC e he
          exact ⟨e1, e2, e3, e4, fun hft => e5 (found_persists_op g e.user op hft)⟩

lemma init_fold (hidden : List Char) : ∀ (users : List Nat) (acc : List (Nat × Player)),
    (acc.map Prod.fst).Nodup →
    (((users.foldl (fun ps u =>
        if (lookupP ps u).isSome then ps else ps ++ [(u, Player.init hidden)]) acc).map
          Prod.fst).Nodup ∧
     ∀ q ∈ users.foldl (fun ps u =>
        if (lookupP ps u).isSome then ps else ps ++ [(u, Player.init hidden)]) acc,
       q ∈ acc ∨ q.2 = Player.init hidden) := by
  intro users
  induction users with
  | nil => exact fun acc hnd => ⟨hnd, fun q hq => Or.inl hq⟩
  | cons u users ih =>
    intro acc hnd
    rw [List.foldl_cons]
    by_cases hu : (lookupP acc u).isSome = true
    · rw [if_pos hu]
      exact ih acc hnd
    · rw [if_neg hu]
      have hun : lookupP acc u = none :=
        isSome_eq_false_iff_none.mp (by revert hu; cases (lookupP acc u).isSome <;> simp)
      have hnd' : ((acc ++ [(u, Player.init hidden)]).map Prod.fst).Nodup := by
        rw [List.map_append, List.nodup_append]
        refine ⟨hnd, by simp, ?_⟩
        intro a ha hb
        rw [List.map_singleton, List.mem_singleton] at hb
        subst hb
        exact (lookupP_eq_none_iff acc a).mp hun ha
      obtain ⟨h1, h2⟩ := ih (acc ++ [(u, Player.init hidden)]) hnd'
      refine ⟨h1, ?_⟩
      intro q hq
      rcases h2 q hq with hq' | hq'
      · rcases List.mem_append.mp hq' with hm | hm
        · exact Or.inl hm
        · rw [List.mem_singleton] at hm
          subst hm
          exact Or.inr rfl
      · exact Or.inr hq'

lemma Inv_init (dict : List Char → Bool) (hidden : List Char) (users : List Nat) :
    Inv (Game.init dict hidden users) := by
  obtain ⟨h1, h2⟩ := init_fold hidden users [] (by simp)
  refine ⟨h1, show (1 : Int) ≤ 1 by norm_num, ?_⟩
  intro q hq
  rcases h2 q hq with hq' | hq'
  · exact absurd hq' (List.not_mem_nil q)
  · rw [hq']
    exact Or.inl rfl

/-- C3: along every sequence of operations on a session started by
`Game.init`, the observed rank-assignment events hand out exactly the
ranks 1, 2, 3, … in order; no player receives a rank twice and no two
players share one (the assigned users are pairwise distinct); and every
assignment happens exactly at the moment the player's revealed letters
become fully known (found flips from false to true), granting the
`next_rank` current at that step. -/
theorem spec_C3_rank_assignment (dict : List Char → Bool) (hidden : List Char)
    (users : List Nat) (ops : List Op) :
    (((Game.init dict hidden users).trace ops).map (fun e => e.rankAfter) =
      (List.range ((Game.init dict hidden users).trace ops).length).map
        (fun i : Nat => (i : Int) + 1)) ∧
    (((Game.init dict hidden users).trace ops).map (fun e => e.user)).Nodup ∧
    (∀ e ∈ (Game.init dict hidden users).trace ops,
       e.rankBefore = -1 ∧ e.foundBefore = false ∧ e.foundAfter = true ∧
       e.rankAfter = e.nextRankBefore) := by
  obtain ⟨hA, hB, hC⟩ := trace_spec ops (Game.init dict hidden users) (Inv_init dict hidden users)
  refine ⟨?_, hB, fun e he =>
    ⟨(hC e he).1, (hC e he).2.1, (hC e he).2.2.1, (hC e he).2.2.2.1⟩⟩
  rw [hA]
  apply List.map_congr_left
  intro i _
  show (Game.init dict hidden users).next_rank + (i : Int) = (i : Int) + 1
  rw [show (Game.init dict hidden users).next_rank = 1 from rfl]
  ring

/-- Witness for C3: a one-player session in which the guess completes the
player produces exactly the event assigning rank 1 at the completion
moment. -/
theorem spec_C3_rank_assignment_witness :
    (⟨0, -1, 1, false, true, 1⟩ : RankEvent) ∈
      (Game.init (fun _ => true) ['a','b'] [0]).trace [Op.guess 0 ['a','b']] ∧
    ((⟨0, -1, 1, false, true, 1⟩ : RankEvent).rankBefore = -1 ∧
     (⟨0, -1, 1, false, true, 1⟩ : RankEvent).foundBefore = false ∧
     (⟨0, -1, 1, false, true, 1⟩ : RankEvent).foundAfter = true ∧
     (⟨0, -1, 1, false, true, 1⟩ : RankEvent).rankAfter =
       (⟨0, -1, 1, false, true, 1⟩ : RankEvent).nextRankBefore) :=
  ⟨by decide,
   (spec_C3_rank_assignment (fun _ => true) ['a','b'] [0] [Op.guess 0 ['a','b']]).2.2 _
     (by decide)⟩

end Sutord
